import Mathlib

/-!
Verification of the VectorEmbedding repository core: the chunking logic of
`DocumentService` (services/documentService.js), the similarity and clustering
logic of `SimilarityService` (services/similarityService.js), and the
initialization gate of `RAGController` (controllers/ragController.js).

JavaScript values are modelled as follows: numbers as `ℚ` (the claims under
study depend only on ordering and exact constants, not on floating-point
rounding), strings as `String`, arrays as `List`, a possibly-null embedding as
`Option Embedding`, a JS object used as a string-keyed record as an association
list in property-insertion order (JS objects have unique keys, which appears as
a `Nodup` hypothesis where needed), and a thrown exception as `Except.error`.
The external npm function `cosineSimilarity` (package compute-cosine-similarity)
is an imported black box for this repository, so every definition that uses it
is parametrised by an arbitrary score function `sim`.
-/

/-- A vector embedding: JS `number[]`. -/
abbrev Embedding := List ℚ

/-- A JS object mapping words to possibly-null embeddings, in property order. -/
abbrev WordMap := List (String × Option Embedding)

/-- JS `wordEmbeddings[word]` followed by a truthiness test: both an absent key
and a `null` value are falsy, while any array (even empty) is truthy, so the
result collapses `Option (Option Embedding)` to `Option Embedding`. -/
def lookupWord (m : WordMap) (w : String) : Option Embedding :=
  match m.lookup w with
  | some e => e
  | none => none

/-- One element of the array built by `findMostSimilar`: `{ word, similarity }`. -/
structure SimEntry where
  word : String
  similarity : ℚ
deriving DecidableEq, Repr

/-- The `similarities` array of `SimilarityService.findMostSimilar` in the
iteration order of `Object.entries(wordEmbeddings)`: the target word is
skipped, and a word is kept only when its embedding is truthy (non-null), with
`calculateCosineSimilarity` inlined on the two non-null vectors. -/
def similaritiesList (sim : Embedding → Embedding → ℚ) (targetWord : String)
    (targetEmbedding : Embedding) (m : WordMap) : List SimEntry :=
  m.filterMap fun p =>
    if p.1 = targetWord then none
    else p.2.map fun e => SimEntry.mk p.1 (sim targetEmbedding e)

/-- Ordering used to model the JS call
`similarities.sort((a, b) => b.similarity - a.similarity)`: JS `sort` is
stable, and a stable sort by descending similarity is exactly a sort of
(index, value) pairs by descending similarity with ties broken by ascending
original index; on distinct indices this relation is a total order, so the
sorted result is unique and independent of the sorting algorithm. -/
def simRel (a b : Nat × SimEntry) : Prop :=
  b.2.similarity < a.2.similarity ∨
    (a.2.similarity = b.2.similarity ∧ a.1 ≤ b.1)

instance : DecidableRel simRel := fun a b =>
  inferInstanceAs (Decidable (b.2.similarity < a.2.similarity ∨
    (a.2.similarity = b.2.similarity ∧ a.1 ≤ b.1)))

instance : IsTotal (Nat × SimEntry) simRel where
  total a b := by
    unfold simRel
    rcases lt_trichotomy a.2.similarity b.2.similarity with h | h | h
    · exact Or.inr (Or.inl h)
    · rcases Nat.le_total a.1 b.1 with hn | hn
      · exact Or.inl (Or.inr ⟨h, hn⟩)
      · exact Or.inr (Or.inr ⟨h.symm, hn⟩)
    · exact Or.inl (Or.inl h)

instance : IsTrans (Nat × SimEntry) simRel where
  trans a b c hab hbc := by
    unfold simRel at *
    rcases hab with h1 | ⟨h1, h1n⟩ <;> rcases hbc with h2 | ⟨h2, h2n⟩
    · exact Or.inl (h2.trans h1)
    · exact Or.inl (h2 ▸ h1)
    · exact Or.inl (by rw [h1]; exact h2)
    · exact Or.inr ⟨h1.trans h2, h1n.trans h2n⟩

/-- Stable descending-by-similarity sort of a list of entries. -/
def stableSortDesc (l : List SimEntry) : List SimEntry :=
  (l.enum.insertionSort simRel).map Prod.snd

/-- `SimilarityService.findMostSimilar(targetWord, wordEmbeddings, topK)`:
throws when the target embedding is null or absent; otherwise collects the
similarity entries for every other non-null word, sorts them descending by
similarity (stably) and keeps the first `topK`. -/
def findMostSimilar (sim : Embedding → Embedding → ℚ) (targetWord : String)
    (m : WordMap) (topK : Nat) : Except String (List SimEntry) :=
  match lookupWord m targetWord with
  | none =>
      .error ("Target word \"" ++ targetWord ++ "\" not found in embeddings")
  | some targetEmbedding =>
      .ok ((stableSortDesc (similaritiesList sim targetWord targetEmbedding m)).take topK)

/-- `SimilarityService.interpretSimilarity(score)`: first strict-`>` threshold
that matches, in descending order. -/
def interpretSimilarity (score : ℚ) : String :=
  if score > 9/10 then "Nearly identical meaning"
  else if score > 7/10 then "Very similar meaning"
  else if score > 5/10 then "Moderately similar"
  else if score > 3/10 then "Somewhat related"
  else if score > 1/10 then "Slightly related"
  else "Very different meaning"

/-- One step of the absorption loop inside `clusterByThreshold`: the pair `cv`
is (cluster, visited); a ranked word joins the cluster and the visited set when
it is not yet visited and its similarity is at least the threshold. -/
def absorbStep (threshold : ℚ) (cv : List String × List String) (e : SimEntry) :
    List String × List String :=
  if e.word ∉ cv.2 ∧ threshold ≤ e.similarity then
    (cv.1 ++ [e.word], cv.2 ++ [e.word])
  else cv

/-- The `for (const word of words)` loop of `SimilarityService.clusterByThreshold`:
skip visited words; otherwise seed a new cluster with the word, mark it
visited, rank all other words with `findMostSimilar` (throwing exactly when the
seed embedding is null/absent), absorb the qualifying ones, and emit the
cluster. `totalWords` is `words.length`. -/
def clusterLoop (sim : Embedding → Embedding → ℚ) (m : WordMap) (threshold : ℚ)
    (totalWords : Nat) :
    List String → List String → List (List String) →
    Except String (List (List String))
  | [], _, clusters => .ok clusters
  | word :: rest, visited, clusters =>
    if word ∈ visited then
      clusterLoop sim m threshold totalWords rest visited clusters
    else
      let visited1 := visited ++ [word]
      match findMostSimilar sim word m (totalWords - 1) with
      | .error e => .error e
      | .ok similarWords =>
        let cv := similarWords.foldl (absorbStep threshold) ([word], visited1)
        clusterLoop sim m threshold totalWords rest cv.2 (clusters ++ [cv.1])

/-- `SimilarityService.clusterByThreshold(wordEmbeddings, threshold)`. -/
def clusterByThreshold (sim : Embedding → Embedding → ℚ) (m : WordMap)
    (threshold : ℚ) : Except String (List (List String)) :=
  let words := m.map Prod.fst
  clusterLoop sim m threshold words.length words [] []

/-- A row of the similarity matrix: a JS object in insertion order. -/
abbrev SimRow := List (String × ℚ)

/-- The similarity matrix: word → (word → score), rows in insertion order. -/
abbrev SimMatrix := List (String × SimRow)

/-- JS `matrix[a] && matrix[a][b] !== undefined ? matrix[a][b] : undefined`. -/
def matLookup (mat : SimMatrix) (a b : String) : Option ℚ :=
  match mat.lookup a with
  | some row => row.lookup b
  | none => none

/-- Inner-loop body of `SimilarityService.createSimilarityMatrix` for cell
(`i`, `word1`) x (`j`, `word2`): diagonal gets exactly 1; otherwise an already
computed symmetric cell is copied (the matrix seen by the lookup is the
finished rows `acc` plus the partially built current row, as in the JS code
where `matrix[word1]` is assigned before the inner loop); otherwise the score
is computed when both embeddings are truthy, and the cell is skipped when
either is null/absent. -/
def rowStep (sim : Embedding → Embedding → ℚ) (m : WordMap) (acc : SimMatrix)
    (i : Nat) (word1 : String) (row : SimRow) (jw : Nat × String) : SimRow :=
  if i = jw.1 then row ++ [(jw.2, 1)]
  else
    match matLookup (acc ++ [(word1, row)]) jw.2 word1 with
    | some v => row ++ [(jw.2, v)]
    | none =>
      match lookupWord m word1, lookupWord m jw.2 with
      | some e1, some e2 => row ++ [(jw.2, sim e1 e2)]
      | _, _ => row

/-- The inner `for (let j = 0; ...)` loop: builds row `i` left to right. -/
def buildRow (sim : Embedding → Embedding → ℚ) (m : WordMap) (acc : SimMatrix)
    (i : Nat) (word1 : String) : SimRow :=
  (m.map Prod.fst).enum.foldl (rowStep sim m acc i word1) []

/-- The outer `for (let i = 0; ...)` loop over the enumerated word list. -/
def buildMatrix (sim : Embedding → Embedding → ℚ) (m : WordMap) :
    List (Nat × String) → SimMatrix → SimMatrix
  | [], acc => acc
  | iw :: rest, acc =>
      buildMatrix sim m rest (acc ++ [(iw.2, buildRow sim m acc iw.1 iw.2)])

/-- `SimilarityService.createSimilarityMatrix(wordEmbeddings)`. -/
def createSimilarityMatrix (sim : Embedding → Embedding → ℚ) (m : WordMap) :
    SimMatrix :=
  buildMatrix sim m (m.map Prod.fst).enum []

/-- Helper for `jsSplitWs`: scans the characters, `cur` holding the current
piece reversed; a whitespace character ends the piece and the whole maximal
whitespace run is consumed, matching one regex match of `\s+`. -/
def jsSplitWsGo : List Char → List Char → List String
  | [], cur => [String.mk cur.reverse]
  | c :: rest, cur =>
    if c.isWhitespace then
      String.mk cur.reverse :: jsSplitWsGo (rest.dropWhile Char.isWhitespace) []
    else
      jsSplitWsGo rest (c :: cur)
termination_by cs _ => cs.length
decreasing_by
  · exact Nat.lt_succ_of_le (List.dropWhile_sublist _).length_le
  · exact Nat.lt_succ_self _

/-- JS `content.split(/\s+/)`: splits on maximal whitespace runs, producing an
empty piece at the start or end when the text starts or ends with whitespace,
and the single piece `""` for empty input. -/
def jsSplitWs (s : String) : List String :=
  jsSplitWsGo s.toList []

/-- A chunk record as built by `DocumentService.createChunks`. -/
structure Chunk where
  id : String
  documentId : String
  documentTitle : String
  content : String
  startPosition : Nat
  endPosition : Nat
  chunkIndex : Nat
  wordCount : Nat
deriving DecidableEq, Repr

/-- `this.chunkSize` as set in the `DocumentService` constructor. -/
def chunkSizeDefault : Nat := 500

/-- `this.chunkOverlap` as set in the `DocumentService` constructor. -/
def chunkOverlapDefault : Nat := 50

/-- `Math.floor(this.chunkSize / 5)` for a general field configuration. -/
def wordsPerChunkOf (chunkSize : Nat) : Nat := chunkSize / 5

/-- `Math.floor(this.chunkOverlap / 5)` for a general field configuration. -/
def overlapWordsOf (chunkOverlap : Nat) : Nat := chunkOverlap / 5

/-- The per-iteration advance `avgWordsPerChunk - overlapWords` of the chunking
loop, as the integer the JS subtraction produces (it may be zero or negative;
the code contains no clamping). -/
def chunkStep (chunkSize chunkOverlap : Nat) : Int :=
  (wordsPerChunkOf chunkSize : Int) - (overlapWordsOf chunkOverlap : Int)

/-- The window start index after one iteration of the chunking loop. -/
def nextWindowStart (chunkSize chunkOverlap : Nat) (i : Int) : Int :=
  i + chunkStep chunkSize chunkOverlap

/-- `Math.floor(this.chunkSize / 5)` with the constructor value 500, i.e. 100. -/
def avgWordsPerChunk : Nat := wordsPerChunkOf chunkSizeDefault

/-- `Math.floor(this.chunkOverlap / 5)` with the constructor value 50, i.e. 10. -/
def overlapWords : Nat := overlapWordsOf chunkOverlapDefault

/-- The `for` loop of `DocumentService.createChunks` under the constructor
configuration (step `100 - 10 = 90`): while the start index is in bounds, take
the next window of `avgWordsPerChunk` words, stop before emitting a
trimmed-empty chunk, otherwise emit a chunk whose `chunkIndex` and id suffix
are the number of chunks already emitted, and advance the start index by the
step. `fuel` is a structural bound on the iteration count; since the step is
90 ≥ 1, `words.length` iterations always suffice, and when fuel runs out the
start index is already out of bounds, so returning `acc` agrees with the JS
loop exit. -/
def createChunksLoop (words : List String) (documentId title : String) :
    Nat → Nat → Nat → List Chunk → List Chunk
  | 0, _, _, acc => acc
  | fuel + 1, i, currentPosition, acc =>
    if i < words.length then
      let chunkWords := (words.drop i).take avgWordsPerChunk
      let chunkContent := String.intercalate " " chunkWords
      if chunkContent.trim = "" then acc
      else
        let chunk : Chunk :=
          { id := documentId ++ "_chunk_" ++ toString acc.length
            documentId := documentId
            documentTitle := title
            content := chunkContent
            startPosition := currentPosition
            endPosition := currentPosition + chunkContent.length
            chunkIndex := acc.length
            wordCount := chunkWords.length }
        createChunksLoop words documentId title fuel
          (i + (avgWordsPerChunk - overlapWords))
          (currentPosition + chunkContent.length) (acc ++ [chunk])
    else acc

/-- `DocumentService.createChunks(content, documentId, title)`. -/
def createChunks (content documentId title : String) : List Chunk :=
  let words := jsSplitWs content
  createChunksLoop words documentId title words.length 0 0 []

/-- A document record as built by `DocumentService.addDocument`; `addedAt` is
the `new Date().toISOString()` wall-clock string, supplied by the caller in
this model, and `metadata` is the caller-provided metadata bag. -/
structure Document where
  id : String
  title : String
  content : String
  addedAt : String
  characterCount : Nat
  wordCount : Nat
  metadata : List (String × String)
deriving DecidableEq, Repr

/-- A stored chunk embedding: `{ chunkId, embedding, chunk }`. -/
structure ChunkEmbedding where
  chunkId : String
  embedding : Embedding
  chunk : Chunk
deriving DecidableEq, Repr

/-- The three JS `Map`s of `DocumentService`, each as an association list in
insertion order; `Map.set` on an existing key replaces the value in place. -/
structure DocumentService where
  documents : List (String × Document)
  documentChunks : List (String × List Chunk)
  chunkEmbeddings : List (String × ChunkEmbedding)
deriving DecidableEq, Repr

/-- JS `Map.prototype.set`: replaces the value of an existing key in place,
otherwise appends the new binding. -/
def mapSet {β : Type} : List (String × β) → String → β → List (String × β)
  | [], k, v => [(k, v)]
  | (k1, v1) :: rest, k, v =>
    if k1 = k then (k, v) :: rest else (k1, v1) :: mapSet rest k v

/-- `DocumentService.addDocument(id, title, content, metadata)`: stores the
document record (overwriting any existing one), chunks the content, and stores
the chunk list (overwriting any existing chunk set for that id). -/
def DocumentService.addDocument (s : DocumentService)
    (id title content addedAt : String) (metadata : List (String × String)) :
    DocumentService :=
  let doc : Document :=
    { id := id, title := title, content := content, addedAt := addedAt
      characterCount := content.length
      wordCount := (jsSplitWs content).length
      metadata := metadata }
  let chunks := createChunks content id title
  { s with documents := mapSet s.documents id doc
           documentChunks := mapSet s.documentChunks id chunks }

/-- `DocumentService.getDocument(id)`: the record or null. -/
def DocumentService.getDocument (s : DocumentService) (id : String) :
    Option Document :=
  s.documents.lookup id

/-- `DocumentService.getDocumentChunks(documentId)`: `get(...) || []`. -/
def DocumentService.getDocumentChunks (s : DocumentService)
    (documentId : String) : List Chunk :=
  (s.documentChunks.lookup documentId).getD []

/-- Body of the `chunks.forEach((chunk, index) => ...)` callback in
`DocumentService.storeChunkEmbeddings`: `ic` is (index, chunk); when
`embeddings[index]` is truthy the record is stored under the chunk id,
otherwise (null or out of range, i.e. `undefined`) nothing happens. -/
def storeStep (embeddings : List (Option Embedding))
    (ce : List (String × ChunkEmbedding)) (ic : Nat × Chunk) :
    List (String × ChunkEmbedding) :=
  match embeddings.getD ic.1 none with
  | some emb => mapSet ce ic.2.id (ChunkEmbedding.mk ic.2.id emb ic.2)
  | none => ce

/-- `DocumentService.storeChunkEmbeddings(documentId, embeddings)`: throws
when the id has no stored chunk set; otherwise walks the chunks with their
positions and stores an embedding record exactly for the positions whose
entry in `embeddings` is truthy (a missing position reads as `undefined`,
hence falsy, and is skipped silently). -/
def DocumentService.storeChunkEmbeddings (s : DocumentService)
    (documentId : String) (embeddings : List (Option Embedding)) :
    Except String DocumentService :=
  match s.documentChunks.lookup documentId with
  | none => .error ("Document " ++ documentId ++ " not found")
  | some chunks =>
    .ok { s with chunkEmbeddings :=
      chunks.enum.foldl (storeStep embeddings) s.chunkEmbeddings }

/-- `RAGController` state: its local `DocumentService` plus the
`isInitialized` flag; the embedding and Pinecone services are external
collaborators whose replies enter the model as arguments. -/
structure RAGController where
  documentService : DocumentService
  isInitialized : Bool
deriving Repr

/-- `new RAGController()`: fresh services, `isInitialized = false`. -/
def RAGController.new : RAGController :=
  { documentService := { documents := [], documentChunks := [], chunkEmbeddings := [] }
    isInitialized := false }

/-- `RAGController.initialize()`: the two collaborator probes are supplied as
booleans; the flag becomes true exactly when the embedding service is healthy
and the vector service initialized, and any failure lands in the catch block,
which resets the flag to false and returns false. -/
def RAGController.initialize (r : RAGController)
    (embeddingHealthy vectorServiceReady : Bool) : RAGController × Bool :=
  if embeddingHealthy then
    if vectorServiceReady then ({ r with isInitialized := true }, true)
    else ({ r with isInitialized := false }, false)
  else ({ r with isInitialized := false }, false)

/-- `RAGController.addDocument(...)`: throws the not-initialized error before
touching any state when the flag is false; otherwise registers and chunks the
document locally, then hands the chunks to the external embedding and vector
collaborators (steps 2 to 4, outside the local state) and resolves true. -/
def RAGController.addDocument (r : RAGController)
    (id title content addedAt : String) (metadata : List (String × String)) :
    Except String (RAGController × Bool) :=
  if r.isInitialized = false then
    .error "RAG system not initialized. Call initialize() first."
  else
    let s1 := r.documentService.addDocument id title content addedAt metadata
    .ok ({ r with documentService := s1 }, true)

/-- `RAGController.buildContext(similarChunks)`: each retrieved chunk prefixed
by a header naming its rank and source document, joined by blank lines. -/
def buildContext (similarChunks : List (ℚ × Chunk)) : String :=
  String.intercalate "\n\n" (similarChunks.enum.map fun ic =>
    "[Context " ++ toString (ic.1 + 1) ++ " from \"" ++ ic.2.2.documentTitle
      ++ "\"]\n" ++ ic.2.2.content)

/-- `RAGController.search(query, topK, ...)`: throws the not-initialized error
when the flag is false; otherwise the query embedding and the ranked chunks
come from the external collaborators (supplied as arguments); a null query
embedding is caught and resolves to null, and otherwise the local formatting
step assembles the result count and context string. -/
def RAGController.search (r : RAGController) (query : String)
    (queryEmbedding : Option Embedding) (similarChunks : List (ℚ × Chunk)) :
    Except String (Option (Nat × String)) :=
  if r.isInitialized = false then
    .error "RAG system not initialized. Call initialize() first."
  else
    match queryEmbedding with
    | none => .ok none
    | some _ => .ok (some (similarChunks.length, buildContext similarChunks))

/-- Closed-form value of the finished matrix cell for row word `w1` at enum
index `i` and column word `w2` at enum index `j`: diagonal cells hold exactly
1; off-diagonal cells exist exactly when both embeddings are non-null and then
hold the score computed with the lower-indexed word first (the order in which
the JS double loop first computes the pair). -/
def entrySpec (sim : Embedding → Embedding → ℚ) (m : WordMap) (i j : Nat)
    (w1 w2 : String) : Option ℚ :=
  if i = j then some 1
  else
    match lookupWord m w1, lookupWord m w2 with
    | some e1, some e2 => some (if i < j then sim e1 e2 else sim e2 e1)
    | _, _ => none

/-- The finished row of the matrix for row word `w1` at enum index `i`:
one column per word whose cell exists, in word order. -/
def rowFinal (sim : Embedding → Embedding → ℚ) (m : WordMap) (i : Nat)
    (w1 : String) : SimRow :=
  (m.map Prod.fst).enum.filterMap fun jw =>
    (entrySpec sim m i jw.1 w1 jw.2).map fun v => (jw.2, v)

/-- The cell `rowStep` produces, rephrased over the finished rows `acc` alone
(legitimate when the column word differs from the row word, which the
uniqueness of JS object keys guarantees off the diagonal). -/
def cellAcc (sim : Embedding → Embedding → ℚ) (m : WordMap) (acc : SimMatrix)
    (i : Nat) (w1 : String) (jw : Nat × String) : Option ℚ :=
  if i = jw.1 then some 1
  else
    match matLookup acc jw.2 w1 with
    | some v => some v
    | none =>
      match lookupWord m w1, lookupWord m jw.2 with
      | some e1, some e2 => some (sim e1 e2)
      | _, _ => none

/-- A concrete score function used to instantiate the `sim` parameter in
witness statements (the npm cosine routine is external to the repository; the
theorems hold for every score function; a constant score keeps concrete runs
free of rational arithmetic). -/
def oneSim : Embedding → Embedding → ℚ := fun _ _ => 1

instance {ε α : Type} [DecidableEq ε] [DecidableEq α] : DecidableEq (Except ε α)
  | .ok a, .ok b =>
    if h : a = b then .isTrue (by rw [h]) else .isFalse (by simp [h])
  | .error a, .error b =>
    if h : a = b then .isTrue (by rw [h]) else .isFalse (by simp [h])
  | .ok _, .error _ => .isFalse (by simp)
  | .error _, .ok _ => .isFalse (by simp)

section Lemmas

/-- `Map.set` then `Map.get` of the same key yields the new value. -/
theorem lookup_mapSet_self {β : Type} (m : List (String × β)) (k : String)
    (v : β) : (mapSet m k v).lookup k = some v := by
  induction m with
  | nil => simp [mapSet, List.lookup]
  | cons p t ih =>
    obtain ⟨k1, v1⟩ := p
    by_cases h : k1 = k
    · simp [mapSet, h, List.lookup]
    · have hb : (k == k1) = false := beq_eq_false_iff_ne.mpr (Ne.symm h)
      simp [mapSet, h, List.lookup, hb, ih]

/-- `Map.set` leaves every other key unchanged. -/
theorem lookup_mapSet_ne {β : Type} (m : List (String × β)) (k k' : String)
    (v : β) (h : k' ≠ k) : (mapSet m k v).lookup k' = m.lookup k' := by
  induction m with
  | nil =>
    have hb : (k' == k) = false := beq_eq_false_iff_ne.mpr h
    simp [mapSet, List.lookup, hb]
  | cons p t ih =>
    obtain ⟨k1, v1⟩ := p
    by_cases h1 : k1 = k
    · subst h1
      have hb : (k' == k1) = false := beq_eq_false_iff_ne.mpr h
      simp [mapSet, List.lookup, hb]
    · by_cases h2 : k' = k1
      · subst h2
        simp [mapSet, h1, List.lookup]
      · have hb : (k' == k1) = false := beq_eq_false_iff_ne.mpr h2
        simp [mapSet, h1, List.lookup, hb, ih]

end Lemmas

/-- C1: the chunking loop of `createChunks` advances by the raw difference
`avgWordsPerChunk - overlapWords` with no clamping: with the fields set to
`chunkSize = 5`, `chunkOverlap = 5` (so `overlapWords = wordsPerChunk = 1`)
the step is 0, not at least 1, and the window start index never advances, so
the emission loop cannot terminate on non-blank content; the constructor
configuration 500/50 happens to give the positive step 90. -/
theorem chunkStep_not_clamped :
    chunkStep 5 5 = 0 ∧ ¬ 1 ≤ chunkStep 5 5 ∧
    (∀ i : Int, nextWindowStart 5 5 i = i) ∧
    chunkStep chunkSizeDefault chunkOverlapDefault = 90 := by
  refine ⟨by decide, by decide, fun i => ?_, by decide⟩
  simp [nextWindowStart, chunkStep, wordsPerChunkOf, overlapWordsOf]

/-- C6: `interpretSimilarity` applies its strict-`>` thresholds in descending
order: 0.95 lands in the first bucket, the exact boundary 0.7 falls past the
`> 0.7` bucket into "Moderately similar", and -0.5 falls through to the final
bucket. -/
theorem interpretSimilarity_values :
    interpretSimilarity (95/100) = "Nearly identical meaning" ∧
    interpretSimilarity (7/10) = "Moderately similar" ∧
    interpretSimilarity (-(1/2)) = "Very different meaning" := by
  refine ⟨?_, ?_, ?_⟩ <;> norm_num [interpretSimilarity]

/-- C4: re-adding an existing document id replaces both the stored document
record and the whole chunk set: `getDocumentChunks` afterwards returns exactly
the chunks freshly created from the new content, and `getDocument` returns the
new record. -/
theorem addDocument_replaces (s : DocumentService)
    (id title content addedAt : String) (metadata : List (String × String))
    (_h : (s.documentChunks.lookup id).isSome) :
    (s.addDocument id title content addedAt metadata).getDocumentChunks id =
      createChunks content id title ∧
    (s.addDocument id title content addedAt metadata).getDocument id =
      some { id := id, title := title, content := content, addedAt := addedAt
             characterCount := content.length
             wordCount := (jsSplitWs content).length
             metadata := metadata } := by
  constructor
  · simp [DocumentService.addDocument, DocumentService.getDocumentChunks,
      lookup_mapSet_self]
  · simp [DocumentService.addDocument, DocumentService.getDocument,
      lookup_mapSet_self]

/-- Witness for C4 at a concrete store that already holds chunks for "d1". -/
theorem addDocument_replaces_witness :
    (((⟨[], [("d1", createChunks "p q" "d1" "T1")], []⟩ :
        DocumentService).documentChunks.lookup "d1").isSome) ∧
    ((⟨[], [("d1", createChunks "p q" "d1" "T1")], []⟩ :
        DocumentService).addDocument "d1" "T2" "x y" "t2" []).getDocumentChunks
      "d1" = createChunks "x y" "d1" "T2" :=
  ⟨by decide, (addDocument_replaces _ "d1" "T2" "x y" "t2" [] (by decide)).1⟩

/-- C9: while `isInitialized` is false, `addDocument` and `search` throw the
not-initialized error immediately — no controller state is produced, so no
local mutation or collaborator call happens — and after an `initialize` run in
which both collaborators report healthy, the flag is true and both operations
are accepted. -/
theorem ragController_gate (r : RAGController)
    (id title content addedAt query : String)
    (metadata : List (String × String)) (qe : Option Embedding)
    (sc : List (ℚ × Chunk)) (h : r.isInitialized = false) :
    (r.addDocument id title content addedAt metadata =
        .error "RAG system not initialized. Call initialize() first." ∧
      r.search query qe sc =
        .error "RAG system not initialized. Call initialize() first.") ∧
    (( RAGController.initialize r true true).1.isInitialized = true ∧
      (∃ out, ( RAGController.initialize r true true).1.addDocument id title content addedAt
        metadata = .ok out) ∧
      (∃ res, ( RAGController.initialize r true true).1.search query qe sc = .ok res)) := by
  refine ⟨⟨?_, ?_⟩, ?_, ?_, ?_⟩ <;>
    cases qe <;>
      simp [RAGController.addDocument, RAGController.search,
        RAGController.initialize, h]

/-- Witness for C9 at the freshly constructed controller. -/
theorem ragController_gate_witness :
    RAGController.new.isInitialized = false ∧
    (RAGController.new.addDocument "d" "T" "c" "now" [] =
        .error "RAG system not initialized. Call initialize() first." ∧
      RAGController.new.search "q" none [] =
        .error "RAG system not initialized. Call initialize() first.") ∧
    (( RAGController.initialize RAGController.new true true).1.isInitialized = true ∧
      (∃ out, ( RAGController.initialize RAGController.new true true).1.addDocument "d" "T"
        "c" "now" [] = .ok out) ∧
      (∃ res, ( RAGController.initialize RAGController.new true true).1.search "q" none [] =
        .ok res)) :=
  ⟨rfl, ragController_gate RAGController.new "d" "T" "c" "now" "q" [] none []
    rfl⟩

/-- Invariant of the chunk-emission loop: if the accumulated chunks carry the
indices `0..len-1` in order, with ids formatted from those indices, the final
chunk list does too, because each emitted chunk takes index `acc.length`. -/
theorem createChunksLoop_indices (words : List String)
    (documentId title : String) :
    ∀ (fuel i cp : Nat) (acc : List Chunk),
      acc.map Chunk.chunkIndex = List.range acc.length →
      acc.map Chunk.id = (List.range acc.length).map
        (fun k => documentId ++ "_chunk_" ++ toString k) →
      ((createChunksLoop words documentId title fuel i cp acc).map
          Chunk.chunkIndex =
        List.range (createChunksLoop words documentId title fuel i cp
          acc).length ∧
       (createChunksLoop words documentId title fuel i cp acc).map Chunk.id =
        (List.range (createChunksLoop words documentId title fuel i cp
          acc).length).map (fun k => documentId ++ "_chunk_" ++ toString k)) := by
  intro fuel
  induction fuel with
  | zero => intro i cp acc h1 h2; exact ⟨h1, h2⟩
  | succ fuel ih =>
    intro i cp acc h1 h2
    rw [createChunksLoop]
    by_cases hin : i < words.length
    · simp only [hin, if_true]
      by_cases hempty :
          (String.intercalate " " ((words.drop i).take avgWordsPerChunk)).trim
            = ""
      · simp only [hempty, if_pos rfl]
        exact ⟨h1, h2⟩
      · simp only [if_neg hempty]
        apply ih
        · simp [h1, List.range_succ]
        · simp [h2, List.range_succ]
    · simp only [hin, if_false]
      exact ⟨h1, h2⟩

/-- C7: for non-empty content, the chunks created by `createChunks` carry
`chunkIndex` values exactly `0..n-1` in emission order, with ids
`<documentId>_chunk_<index>` for the same indices. -/
theorem createChunks_indices (content documentId title : String)
    (_h : content ≠ "") :
    (createChunks content documentId title).map Chunk.chunkIndex =
      List.range (createChunks content documentId title).length ∧
    (createChunks content documentId title).map Chunk.id =
      (List.range (createChunks content documentId title).length).map
        (fun k => documentId ++ "_chunk_" ++ toString k) := by
  have := createChunksLoop_indices (jsSplitWs content) documentId title
    (jsSplitWs content).length 0 0 [] (by simp) (by simp)
  simpa [createChunks] using this

/-- Witness for C7 at the content "a b c". -/
theorem createChunks_indices_witness :
    ("a b c" : String) ≠ "" ∧
    ((createChunks "a b c" "d1" "T").map Chunk.chunkIndex =
      List.range (createChunks "a b c" "d1" "T").length ∧
    (createChunks "a b c" "d1" "T").map Chunk.id =
      (List.range (createChunks "a b c" "d1" "T").length).map
        (fun k => "d1" ++ "_chunk_" ++ toString k)) :=
  ⟨by decide, createChunks_indices "a b c" "d1" "T" (by decide)⟩

/-- The absorption fold appends exactly the same words to the cluster and to
the visited list, so visited stays equal to its old value plus the cluster. -/
theorem absorb_snd_eq (threshold : ℚ) (sw : List SimEntry) :
    ∀ (c v pre : List String), v = pre ++ c →
      (sw.foldl (absorbStep threshold) (c, v)).2 =
        pre ++ (sw.foldl (absorbStep threshold) (c, v)).1 := by
  induction sw with
  | nil => intro c v pre h; simpa using h
  | cons e t ih =>
    intro c v pre h
    simp only [List.foldl_cons]
    unfold absorbStep
    split_ifs with hc
    · exact ih (c ++ [e.word]) (v ++ [e.word]) pre (by rw [h, List.append_assoc])
    · exact ih c v pre h

/-- The absorption fold preserves `Nodup` of the visited list. -/
theorem absorb_nodup (threshold : ℚ) (sw : List SimEntry) :
    ∀ cv : List String × List String, cv.2.Nodup →
      (sw.foldl (absorbStep threshold) cv).2.Nodup := by
  induction sw with
  | nil => intro cv h; exact h
  | cons e t ih =>
    intro cv h
    simp only [List.foldl_cons]
    apply ih
    unfold absorbStep
    split_ifs with hc
    · exact List.nodup_append.mpr
        ⟨h, List.nodup_singleton _, List.disjoint_singleton.mpr hc.1⟩
    · exact h

/-- The absorption fold only extends the cluster. -/
theorem absorb_fst_subset (threshold : ℚ) (sw : List SimEntry) :
    ∀ cv : List String × List String,
      cv.1 ⊆ (sw.foldl (absorbStep threshold) cv).1 := by
  induction sw with
  | nil => intro cv; exact fun _ h => h
  | cons e t ih =>
    intro cv
    simp only [List.foldl_cons]
    refine fun x hx => ih (absorbStep threshold cv e) ?_
    unfold absorbStep
    split_ifs with hc
    · exact List.mem_append_left _ hx
    · exact hx

/-- Every word in the visited list after the absorption fold was already
visited or is the word of one of the ranked entries. -/
theorem absorb_snd_from (threshold : ℚ) (sw : List SimEntry) :
    ∀ (cv : List String × List String) (x : String),
      x ∈ (sw.foldl (absorbStep threshold) cv).2 →
      x ∈ cv.2 ∨ ∃ e ∈ sw, e.word = x := by
  induction sw with
  | nil => intro cv x h; exact Or.inl h
  | cons e t ih =>
    intro cv x h
    simp only [List.foldl_cons] at h
    rcases ih (absorbStep threshold cv e) x h with h1 | ⟨e1, he1, rfl⟩
    · unfold absorbStep at h1
      split_ifs at h1 with hc
      · rcases List.mem_append.mp h1 with h2 | h2
        · exact Or.inl h2
        · exact Or.inr ⟨e, List.mem_cons_self _ _, (List.mem_singleton.mp h2).symm⟩
      · exact Or.inl h1
    · exact Or.inr ⟨e1, List.mem_cons_of_mem _ he1, rfl⟩

/-- Invariant of the clustering loop: if the visited list is exactly the
concatenation of the emitted clusters and has no duplicates, then on success
the final cluster list concatenates without duplicates and covers every word
of the pending list and every already-visited word. -/
theorem clusterLoop_partition (sim : Embedding → Embedding → ℚ) (m : WordMap)
    (threshold : ℚ) (totalWords : Nat) :
    ∀ (rest visited : List String) (clusters out : List (List String)),
      visited = clusters.flatten →
      visited.Nodup →
      clusterLoop sim m threshold totalWords rest visited clusters = .ok out →
      (out.flatten.Nodup ∧
        ∀ w, w ∈ rest ∨ w ∈ visited → w ∈ out.flatten) := by
  intro rest
  induction rest with
  | nil =>
    intro visited clusters out hflat hnd hok
    simp only [clusterLoop, Except.ok.injEq] at hok
    subst hok
    refine ⟨hflat ▸ hnd, fun w hw => ?_⟩
    rcases hw with hw | hw
    · cases hw
    · exact hflat ▸ hw
  | cons word rest ih =>
    intro visited clusters out hflat hnd hok
    rw [clusterLoop] at hok
    by_cases hv : word ∈ visited
    · rw [if_pos hv] at hok
      obtain ⟨h1, h2⟩ := ih visited clusters out hflat hnd hok
      refine ⟨h1, fun w hw => h2 w ?_⟩
      rcases hw with hw | hw
      · rcases List.mem_cons.mp hw with rfl | hw
        · exact Or.inr hv
        · exact Or.inl hw
      · exact Or.inr hw
    · rw [if_neg hv] at hok
      cases hfind : findMostSimilar sim word m (totalWords - 1) with
      | error e => rw [hfind] at hok; simp at hok
      | ok sw =>
        rw [hfind] at hok
        simp only at hok
        set cv := sw.foldl (absorbStep threshold) ([word], visited ++ [word])
          with hcv
        have hpre : cv.2 = visited ++ cv.1 :=
          absorb_snd_eq threshold sw [word] (visited ++ [word]) visited rfl
        have hnd1 : (visited ++ [word]).Nodup :=
          List.nodup_append.mpr
            ⟨hnd, List.nodup_singleton _, List.disjoint_singleton.mpr hv⟩
        have hnd2 : cv.2.Nodup := absorb_nodup threshold sw _ hnd1
        have hflat2 : cv.2 = (clusters ++ [cv.1]).flatten := by
          rw [List.flatten_append, List.flatten_cons, List.flatten_nil,
            List.append_nil, ← hflat, hpre]
        obtain ⟨h1, h2⟩ := ih cv.2 (clusters ++ [cv.1]) out hflat2 hnd2 hok
        refine ⟨h1, fun w hw => ?_⟩
        rcases hw with hw | hw
        · rcases List.mem_cons.mp hw with rfl | hw
          · refine h2 w (Or.inr ?_)
            rw [hpre]
            exact List.mem_append_right _
              (absorb_fst_subset threshold sw ([w], visited ++ [w])
                (List.mem_singleton_self w))
          · exact h2 w (Or.inl hw)
        · refine h2 w (Or.inr ?_)
          rw [hpre]
          exact List.mem_append_left _ hw

/-- A word occurring exactly once across a duplicate-free concatenation lies
in exactly one of the concatenated lists. -/
theorem countP_flatten_unique (w : String) :
    ∀ clusters : List (List String), clusters.flatten.Nodup →
      w ∈ clusters.flatten →
      clusters.countP (fun c => decide (w ∈ c)) = 1 := by
  intro clusters
  induction clusters with
  | nil => simp
  | cons c cs ih =>
    intro hnd hm
    rw [List.flatten_cons] at hnd hm
    rw [List.nodup_append] at hnd
    obtain ⟨hc, hcs, hdisj⟩ := hnd
    rw [List.countP_cons]
    rcases List.mem_append.mp hm with hw | hw
    · have h0 : cs.countP (fun c' => decide (w ∈ c')) = 0 :=
        List.countP_eq_zero.mpr fun c' hc' hwc' =>
          (hdisj hw) (List.mem_flatten.mpr ⟨c', hc', by simpa using hwc'⟩)
      simp [h0, hw]
    · have hw_notc : w ∉ c := fun hwc => (hdisj hwc) hw
      simp [ih hcs hw, hw_notc]

/-- C2: when `clusterByThreshold` completes, the emitted clusters partition
the input words: every word with a non-null embedding lies in exactly one
cluster, and every input word lies in at least one cluster. -/
theorem clusterByThreshold_partition (sim : Embedding → Embedding → ℚ)
    (m : WordMap) (threshold : ℚ) (clusters : List (List String))
    (h : clusterByThreshold sim m threshold = .ok clusters) :
    (∀ w ∈ m.map Prod.fst, lookupWord m w ≠ none →
      clusters.countP (fun c => decide (w ∈ c)) = 1) ∧
    (∀ w ∈ m.map Prod.fst, ∃ c ∈ clusters, w ∈ c) := by
  unfold clusterByThreshold at h
  obtain ⟨hnd, hcov⟩ := clusterLoop_partition sim m threshold
    (m.map Prod.fst).length (m.map Prod.fst) [] [] clusters rfl
    List.nodup_nil h
  constructor
  · intro w hw _
    exact countP_flatten_unique w clusters hnd (hcov w (Or.inl hw))
  · intro w hw
    exact List.mem_flatten.mp (hcov w (Or.inl hw))

/-- Witness for C2 on a two-word map where both words have embeddings. -/
theorem clusterByThreshold_partition_witness :
    clusterByThreshold oneSim [("a", some [1]), ("b", some [1])] 0 =
      Except.ok [["a", "b"]] ∧
    ((∀ w ∈ ([("a", some [1]), ("b", some [1])] : WordMap).map Prod.fst,
        lookupWord [("a", some [1]), ("b", some [1])] w ≠ none →
        ([["a", "b"]] : List (List String)).countP
          (fun c => decide (w ∈ c)) = 1) ∧
      (∀ w ∈ ([("a", some [1]), ("b", some [1])] : WordMap).map Prod.fst,
        ∃ c ∈ ([["a", "b"]] : List (List String)), w ∈ c)) :=
  ⟨by decide, clusterByThreshold_partition oneSim
    [("a", some [1]), ("b", some [1])] 0 [["a", "b"]] (by decide)⟩

/-- With duplicate-free keys (always true of a JS object), a binding that
occurs in the association list is what lookup returns. -/
theorem lookup_eq_of_mem {β : Type} (m : List (String × β)) (k : String)
    (v : β) (hnd : (m.map Prod.fst).Nodup) (hm : (k, v) ∈ m) :
    m.lookup k = some v := by
  induction m with
  | nil => cases hm
  | cons p t ih =>
    obtain ⟨k1, v1⟩ := p
    rw [List.map_cons, List.nodup_cons] at hnd
    rcases List.mem_cons.mp hm with heq | hm2
    · injection heq with h1 h2
      subst h1; subst h2
      simp [List.lookup]
    · have hk : k ≠ k1 := by
        rintro rfl
        exact hnd.1 (List.mem_map.mpr ⟨(k, v), hm2, rfl⟩)
      have hb : (k == k1) = false := beq_eq_false_iff_ne.mpr hk
      simp [List.lookup, hb, ih hnd.2 hm2]

/-- Every entry `findMostSimilar` returns names a word other than the target
whose embedding is present and non-null. -/
theorem findMostSimilar_ok_mem (sim : Embedding → Embedding → ℚ) (m : WordMap)
    (targetWord : String) (topK : Nat) (r : List SimEntry)
    (hnd : (m.map Prod.fst).Nodup)
    (hok : findMostSimilar sim targetWord m topK = .ok r) :
    ∀ e ∈ r, e.word ≠ targetWord ∧ lookupWord m e.word ≠ none := by
  intro e he
  cases hl : lookupWord m targetWord with
  | none => rw [findMostSimilar, hl] at hok; simp at hok
  | some te =>
    rw [findMostSimilar, hl] at hok
    simp only [Except.ok.injEq] at hok
    subst hok
    have he1 : e ∈ stableSortDesc (similaritiesList sim targetWord te m) :=
      List.mem_of_mem_take he
    have he2 : e ∈ similaritiesList sim targetWord te m := by
      unfold stableSortDesc at he1
      obtain ⟨p, hp, rfl⟩ := List.mem_map.mp he1
      have hp2 := (List.perm_insertionSort simRel _).mem_iff.mp hp
      have := List.mem_map_of_mem Prod.snd hp2
      rwa [List.enum_map_snd] at this
    obtain ⟨p, hpm, hpe⟩ := List.mem_filterMap.mp he2
    by_cases hpt : p.1 = targetWord
    · simp [hpt] at hpe
    · simp only [hpt, if_false] at hpe
      cases hp2 : p.2 with
      | none => rw [hp2] at hpe; simp at hpe
      | some emb =>
        rw [hp2] at hpe
        simp only [Option.map_some', Option.some.injEq] at hpe
        have hword : e.word = p.1 := by rw [← hpe]
        have hlk : m.lookup p.1 = some (some emb) :=
          (lookup_eq_of_mem m p.1 p.2 hnd
            (by rw [Prod.mk.eta]; exact hpm)).trans (by rw [hp2])
        constructor
        · rw [hword]; exact hpt
        · rw [hword]
          unfold lookupWord
          rw [hlk]
          simp

/-- If some pending word has a null/absent embedding and all visited words
have embeddings, the clustering loop ends in a thrown error: the null word is
never absorbed, so it is eventually taken as a seed and `findMostSimilar`
throws on it. -/
theorem clusterLoop_error_of_null (sim : Embedding → Embedding → ℚ)
    (m : WordMap) (threshold : ℚ) (totalWords : Nat)
    (hnd : (m.map Prod.fst).Nodup) (w : String)
    (hnull : lookupWord m w = none) :
    ∀ (rest visited : List String) (clusters : List (List String)),
      (∀ v ∈ visited, lookupWord m v ≠ none) →
      w ∈ rest →
      ∃ msg, clusterLoop sim m threshold totalWords rest visited clusters =
        .error msg := by
  intro rest
  induction rest with
  | nil => intro _ _ _ hw; cases hw
  | cons word rest ih =>
    intro visited clusters hinv hw
    rw [clusterLoop]
    by_cases hv : word ∈ visited
    · rw [if_pos hv]
      refine ih visited clusters hinv ?_
      rcases List.mem_cons.mp hw with rfl | hw2
      · exact absurd hnull (hinv _ hv)
      · exact hw2
    · rw [if_neg hv]
      cases hfind : findMostSimilar sim word m (totalWords - 1) with
      | error e => exact ⟨e, by simp [hfind]⟩
      | ok sw =>
        have hword : lookupWord m word ≠ none := by
          intro hn
          rw [findMostSimilar, hn] at hfind
          simp at hfind
        simp only [hfind]
        refine ih _ _ ?_ ?_
        · intro v hvmem
          rcases absorb_snd_from threshold sw _ v hvmem with hvm | ⟨e1, he1, rfl⟩
          · rcases List.mem_append.mp hvm with hvm1 | hvm2
            · exact hinv v hvm1
            · exact (List.mem_singleton.mp hvm2) ▸ hword
          · exact (findMostSimilar_ok_mem sim m word (totalWords - 1) sw hnd
              hfind e1 he1).2
        · rcases List.mem_cons.mp hw with rfl | hw2
          · exact absurd hnull hword
          · exact hw2

/-- C10: if any input word is bound to a null/absent embedding,
`clusterByThreshold` raises an error instead of completing. -/
theorem clusterByThreshold_null_raises (sim : Embedding → Embedding → ℚ)
    (m : WordMap) (threshold : ℚ) (w : String)
    (hnd : (m.map Prod.fst).Nodup) (hw : w ∈ m.map Prod.fst)
    (hnull : lookupWord m w = none) :
    ∃ msg, clusterByThreshold sim m threshold = .error msg := by
  unfold clusterByThreshold
  exact clusterLoop_error_of_null sim m threshold (m.map Prod.fst).length hnd
    w hnull (m.map Prod.fst) [] [] (by simp) hw

/-- Witness for C10: the word "b" has a null embedding, so clustering throws. -/
theorem clusterByThreshold_null_raises_witness :
    ((([("a", some [1]), ("b", none)] : WordMap).map Prod.fst).Nodup ∧
      "b" ∈ ([("a", some [1]), ("b", none)] : WordMap).map Prod.fst ∧
      lookupWord [("a", some [1]), ("b", none)] "b" = none) ∧
    ∃ msg, clusterByThreshold oneSim [("a", some [1]), ("b", none)] 0 =
      .error msg :=
  ⟨⟨by decide, by decide, by decide⟩,
    clusterByThreshold_null_raises oneSim [("a", some [1]), ("b", none)] 0 "b"
      (by decide) (by decide) (by decide)⟩

/-- A key absent from an association list looks up to nothing. -/
theorem lookup_none_of_not_mem {β : Type} (l : List (String × β)) (w : String)
    (h : w ∉ l.map Prod.fst) : l.lookup w = none := by
  induction l with
  | nil => rfl
  | cons p t ih =>
    obtain ⟨k1, v1⟩ := p
    rw [List.map_cons] at h
    have hne : w ≠ k1 := fun he => h (by rw [he]; exact List.mem_cons_self _ _)
    have hb : (w == k1) = false := beq_eq_false_iff_ne.mpr hne
    simp only [List.lookup, hb]
    exact ih fun hw => h (List.mem_cons_of_mem _ hw)

/-- Folding the storing step over positions whose chunk ids all differ from
`w` leaves the binding of `w` unchanged. -/
theorem storeStep_fold_notouch (embeddings : List (Option Embedding)) :
    ∀ (l : List (Nat × Chunk)) (ce : List (String × ChunkEmbedding))
      (w : String),
      (∀ ic ∈ l, ic.2.id ≠ w) →
      (l.foldl (storeStep embeddings) ce).lookup w = ce.lookup w := by
  intro l
  induction l with
  | nil => intro ce w _; rfl
  | cons ic t ih =>
    intro ce w hne
    simp only [List.foldl_cons]
    rw [ih _ w fun x hx => hne x (List.mem_cons_of_mem _ hx)]
    unfold storeStep
    cases embeddings.getD ic.1 none with
    | some emb =>
      exact lookup_mapSet_ne _ _ _ _
        fun he => hne ic (List.mem_cons_self _ _) he.symm
    | none => rfl

/-- After folding the storing step over all positions (with duplicate-free
chunk ids), each chunk id is bound to its positional embedding record when
that embedding is truthy, and keeps its old binding otherwise. -/
theorem storeStep_fold_lookup (embeddings : List (Option Embedding)) :
    ∀ (l : List (Nat × Chunk)) (ce : List (String × ChunkEmbedding)),
      (l.map fun ic => ic.2.id).Nodup →
      ∀ ic ∈ l,
        (l.foldl (storeStep embeddings) ce).lookup ic.2.id =
          match embeddings.getD ic.1 none with
          | some emb => some (ChunkEmbedding.mk ic.2.id emb ic.2)
          | none => ce.lookup ic.2.id := by
  intro l
  induction l with
  | nil => intro ce _ ic h; cases h
  | cons jc t ih =>
    intro ce hnd ic hic
    rw [List.map_cons, List.nodup_cons] at hnd
    simp only [List.foldl_cons]
    rcases List.mem_cons.mp hic with rfl | hic2
    · rw [storeStep_fold_notouch embeddings t _ _
        fun x hx he => hnd.1 (List.mem_map.mpr ⟨x, hx, he⟩)]
      unfold storeStep
      cases embeddings.getD ic.1 none with
      | some emb => exact lookup_mapSet_self _ _ _
      | none => rfl
    · have hne : ic.2.id ≠ jc.2.id :=
        fun he => hnd.1 (List.mem_map.mpr ⟨ic, hic2, he⟩)
      rw [ih _ hnd.2 ic hic2]
      cases embeddings.getD ic.1 none with
      | some emb => rfl
      | none =>
        unfold storeStep
        cases embeddings.getD jc.1 none with
        | some emb2 => exact lookup_mapSet_ne _ _ _ _ hne
        | none => rfl

/-- C8: `storeChunkEmbeddings` throws the not-found error exactly when the
document id has no stored chunk set; otherwise each chunk is paired with the
embedding at its position: a truthy embedding is stored under the chunk id and
a null/absent one is skipped silently, leaving that chunk embedding-less while
the others are still stored. -/
theorem storeChunkEmbeddings_spec (s : DocumentService) (documentId : String)
    (embeddings : List (Option Embedding)) :
    ((∃ msg, s.storeChunkEmbeddings documentId embeddings = .error msg) ↔
      s.documentChunks.lookup documentId = none) ∧
    (∀ chunks s2,
      s.documentChunks.lookup documentId = some chunks →
      (chunks.map Chunk.id).Nodup →
      s.storeChunkEmbeddings documentId embeddings = .ok s2 →
      ∀ (i : Nat) (c : Chunk), chunks[i]? = some c →
        (∀ emb, embeddings.getD i none = some emb →
          s2.chunkEmbeddings.lookup c.id =
            some (ChunkEmbedding.mk c.id emb c)) ∧
        (embeddings.getD i none = none →
          s2.chunkEmbeddings.lookup c.id = s.chunkEmbeddings.lookup c.id)) := by
  constructor
  · cases hl : s.documentChunks.lookup documentId with
    | none =>
      constructor
      · intro _; rfl
      · intro _
        exact ⟨"Document " ++ documentId ++ " not found",
          by rw [DocumentService.storeChunkEmbeddings, hl]⟩
    | some chunks =>
      constructor
      · rintro ⟨msg, hmsg⟩
        rw [DocumentService.storeChunkEmbeddings, hl] at hmsg
        cases hmsg
      · intro hn; cases hn
  · intro chunks s2 hl hnd hok i c hc
    rw [DocumentService.storeChunkEmbeddings, hl] at hok
    simp only [Except.ok.injEq] at hok
    subst hok
    have hmem : (i, c) ∈ chunks.enum := List.mem_enum_iff_getElem?.mpr hc
    have hnd2 : (chunks.enum.map fun ic => ic.2.id).Nodup := by
      have : (chunks.enum.map fun ic => ic.2.id) =
          (chunks.enum.map Prod.snd).map Chunk.id := by
        rw [List.map_map]; rfl
      rw [this, List.enum_map_snd]
      exact hnd
    have hmain := storeStep_fold_lookup embeddings chunks.enum
      s.chunkEmbeddings hnd2 (i, c) hmem
    constructor
    · intro emb hemb
      rw [hemb] at hmain
      exact hmain
    · intro hemb
      rw [hemb] at hmain
      exact hmain

/-- Witness for C8: a store holding one single-chunk document; position 0
carries an embedding, which ends up stored under the chunk id. -/
theorem storeChunkEmbeddings_spec_witness :
    ((⟨[], [("d1", [⟨"d1_chunk_0", "d1", "T", "a b", 0, 3, 0, 2⟩])], []⟩ :
        DocumentService).documentChunks.lookup "d1" =
          some [⟨"d1_chunk_0", "d1", "T", "a b", 0, 3, 0, 2⟩] ∧
      (([⟨"d1_chunk_0", "d1", "T", "a b", 0, 3, 0, 2⟩] : List Chunk).map
        Chunk.id).Nodup ∧
      (⟨[], [("d1", [⟨"d1_chunk_0", "d1", "T", "a b", 0, 3, 0, 2⟩])], []⟩ :
        DocumentService).storeChunkEmbeddings "d1" [some [1]] =
          .ok ⟨[], [("d1", [⟨"d1_chunk_0", "d1", "T", "a b", 0, 3, 0, 2⟩])],
            [("d1_chunk_0", ⟨"d1_chunk_0", [1],
              ⟨"d1_chunk_0", "d1", "T", "a b", 0, 3, 0, 2⟩⟩)]⟩ ∧
      ([⟨"d1_chunk_0", "d1", "T", "a b", 0, 3, 0, 2⟩] : List Chunk)[0]? =
          some ⟨"d1_chunk_0", "d1", "T", "a b", 0, 3, 0, 2⟩ ∧
      ([some ([1] : Embedding)].getD 0 none) = some [1]) ∧
    (⟨[], [("d1", [⟨"d1_chunk_0", "d1", "T", "a b", 0, 3, 0, 2⟩])],
        [("d1_chunk_0", ⟨"d1_chunk_0", [1],
          ⟨"d1_chunk_0", "d1", "T", "a b", 0, 3, 0, 2⟩⟩)]⟩ :
      DocumentService).chunkEmbeddings.lookup "d1_chunk_0" =
        some ⟨"d1_chunk_0", [1], ⟨"d1_chunk_0", "d1", "T", "a b", 0, 3, 0, 2⟩⟩ :=
  ⟨⟨by decide, by decide, by decide, by decide, by decide⟩,
    ((storeChunkEmbeddings_spec
      ⟨[], [("d1", [⟨"d1_chunk_0", "d1", "T", "a b", 0, 3, 0, 2⟩])], []⟩
      "d1" [some [1]]).2
      [⟨"d1_chunk_0", "d1", "T", "a b", 0, 3, 0, 2⟩] _ (by decide) (by decide)
      (by decide) 0 ⟨"d1_chunk_0", "d1", "T", "a b", 0, 3, 0, 2⟩ (by decide)).1
      [1] (by decide)⟩

/-- Enumeration indices are strictly increasing along the list. -/
theorem pairwise_fst_lt_enumFrom {α : Type} :
    ∀ (l : List α) (n : Nat),
      (l.enumFrom n).Pairwise (fun a b => a.1 < b.1) := by
  intro l
  induction l with
  | nil => intro n; simp
  | cons x t ih =>
    intro n
    rw [List.enumFrom_cons]
    refine List.Pairwise.cons ?_ (ih (n + 1))
    intro p hp
    have := (List.mem_enumFrom hp).1
    omega

/-- Enumeration indices are strictly increasing along the list. -/
theorem pairwise_fst_lt_enum {α : Type} (l : List α) :
    l.enum.Pairwise (fun a b => a.1 < b.1) :=
  pairwise_fst_lt_enumFrom l 0

/-- Filtering one similarity class out of the sorted enumerated entries gives
back exactly the corresponding filter of the original enumeration: this is the
stability of the modelled sort, as a list equality. -/
theorem sortedEnum_filter_eq (l : List SimEntry) (q : ℚ) :
    (l.enum.insertionSort simRel).filter
        (fun pr => decide (pr.2.similarity = q)) =
      l.enum.filter (fun pr => decide (pr.2.similarity = q)) := by
  have hperm := (List.perm_insertionSort simRel l.enum).filter
    (fun pr => decide (pr.2.similarity = q))
  have hsortR : (l.enum.filter (fun pr => decide (pr.2.similarity = q))).Pairwise
      (fun a b : Nat × SimEntry => a.1 < b.1) :=
    List.Pairwise.sublist (List.filter_sublist _) (pairwise_fst_lt_enum l)
  have hfilt_sim : ((l.enum.insertionSort simRel).filter
      (fun pr => decide (pr.2.similarity = q))).Pairwise simRel :=
    List.Pairwise.sublist (List.filter_sublist _)
      (List.sorted_insertionSort simRel l.enum)
  have hnodup_fst : (((l.enum.insertionSort simRel)).map Prod.fst).Nodup := by
    refine ((List.perm_insertionSort simRel l.enum).map Prod.fst).symm.nodup ?_
    rw [List.enum_map_fst]
    exact List.nodup_range _
  have hfilt_fst : (((l.enum.insertionSort simRel).filter
      (fun pr => decide (pr.2.similarity = q))).map Prod.fst).Nodup :=
    List.Nodup.sublist (List.Sublist.map Prod.fst (List.filter_sublist _))
      hnodup_fst
  have hfilt_ne : ((l.enum.insertionSort simRel).filter
      (fun pr => decide (pr.2.similarity = q))).Pairwise
      (fun a b => a.1 ≠ b.1) := List.pairwise_map.mp hfilt_fst
  have hsortL : ((l.enum.insertionSort simRel).filter
      (fun pr => decide (pr.2.similarity = q))).Pairwise
      (fun a b : Nat × SimEntry => a.1 < b.1) := by
    refine List.Pairwise.imp_of_mem ?_ (hfilt_sim.and hfilt_ne)
    intro a b ha hb hab
    obtain ⟨hsimr, hne⟩ := hab
    have haq : a.2.similarity = q := by
      have := (List.mem_filter.mp ha).2
      rwa [decide_eq_true_eq] at this
    have hbq : b.2.similarity = q := by
      have := (List.mem_filter.mp hb).2
      rwa [decide_eq_true_eq] at this
    rcases hsimr with hlt | ⟨_, hle⟩
    · rw [haq, hbq] at hlt
      exact absurd hlt (lt_irrefl q)
    · exact lt_of_le_of_ne hle hne
  haveI : IsAntisymm (Nat × SimEntry) (fun a b => a.1 < b.1) :=
    ⟨fun a b h1 h2 => ((lt_irrefl a.1) (h1.trans h2)).elim⟩
  exact List.eq_of_perm_of_sorted hperm hsortL hsortR

/-- Filtering commutes with projecting the entry out of an enumerated pair. -/
theorem filter_map_snd (X : List (Nat × SimEntry)) (q : ℚ) :
    (X.map Prod.snd).filter (fun e => decide (e.similarity = q)) =
      (X.filter (fun pr => decide (pr.2.similarity = q))).map Prod.snd := by
  induction X with
  | nil => rfl
  | cons x t ih =>
    by_cases hx : x.2.similarity = q <;>
      simp [List.filter_cons, hx, ih]

/-- C5: when the target word has a non-null embedding, `findMostSimilar`
returns a list that never contains the target, contains no null-embedding
word, has at most `topK` entries, is sorted descending by similarity, and
breaks ties by the iteration order of the input mapping: each similarity class
of the result is a sublist (here in fact a prefix) of the same class of the
entry list taken in input order. -/
theorem findMostSimilar_spec (sim : Embedding → Embedding → ℚ) (m : WordMap)
    (targetWord : String) (topK : Nat) (te : Embedding)
    (hnd : (m.map Prod.fst).Nodup) (ht : lookupWord m targetWord = some te) :
    ∃ r, findMostSimilar sim targetWord m topK = .ok r ∧
      (∀ e ∈ r, e.word ≠ targetWord) ∧
      (∀ e ∈ r, lookupWord m e.word ≠ none) ∧
      r.length ≤ topK ∧
      r.Pairwise (fun a b => b.similarity ≤ a.similarity) ∧
      ∀ q : ℚ, (r.filter fun e => decide (e.similarity = q)).Sublist
        ((similaritiesList sim targetWord te m).filter fun e =>
          decide (e.similarity = q)) := by
  have hok : findMostSimilar sim targetWord m topK =
      .ok ((stableSortDesc (similaritiesList sim targetWord te m)).take topK) := by
    rw [findMostSimilar, ht]
  refine ⟨_, hok, ?_, ?_, ?_, ?_, ?_⟩
  · intro e he
    exact (findMostSimilar_ok_mem sim m targetWord topK _ hnd hok e he).1
  · intro e he
    exact (findMostSimilar_ok_mem sim m targetWord topK _ hnd hok e he).2
  · exact List.length_take_le _ _
  · refine List.Pairwise.sublist (List.take_sublist _ _) ?_
    unfold stableSortDesc
    rw [List.pairwise_map]
    refine List.Pairwise.imp ?_ (List.sorted_insertionSort simRel _)
    intro a b hab
    rcases hab with hlt | ⟨heq, _⟩
    · exact le_of_lt hlt
    · exact le_of_eq heq.symm
  · intro q
    unfold stableSortDesc
    rw [← List.map_take, filter_map_snd]
    have target_eq : ((similaritiesList sim targetWord te m).filter fun e =>
        decide (e.similarity = q)) =
        ((similaritiesList sim targetWord te m).enum.filter
          (fun pr => decide (pr.2.similarity = q))).map Prod.snd := by
      rw [← filter_map_snd, List.enum_map_snd]
    rw [target_eq]
    refine List.Sublist.map Prod.snd ?_
    rw [← sortedEnum_filter_eq]
    exact List.Sublist.filter _ (List.take_sublist _ _)

/-- Witness for C5 at a three-word map whose third word has a null embedding. -/
theorem findMostSimilar_spec_witness :
    ((([("t", some [1]), ("b", some [1]), ("c", none)] : WordMap).map
        Prod.fst).Nodup ∧
      lookupWord [("t", some [1]), ("b", some [1]), ("c", none)] "t" =
        some [1]) ∧
    ∃ r, findMostSimilar oneSim "t"
        [("t", some [1]), ("b", some [1]), ("c", none)] 1 = .ok r ∧
      (∀ e ∈ r, e.word ≠ "t") ∧
      (∀ e ∈ r,
        lookupWord [("t", some [1]), ("b", some [1]), ("c", none)] e.word ≠
          none) ∧
      r.length ≤ 1 ∧
      r.Pairwise (fun a b => b.similarity ≤ a.similarity) ∧
      ∀ q : ℚ, (r.filter fun e => decide (e.similarity = q)).Sublist
        ((similaritiesList oneSim "t" [1]
          [("t", some [1]), ("b", some [1]), ("c", none)]).filter fun e =>
            decide (e.similarity = q)) :=
  ⟨⟨by decide, by decide⟩,
    findMostSimilar_spec oneSim [("t", some [1]), ("b", some [1]), ("c", none)]
      "t" 1 [1] (by decide) (by decide)⟩

/-- A word that does not occur among the column words is absent from the row
built by filtering the cells. -/
theorem lookup_filterMap_none {γ : Type} (f : Nat × String → Option γ) :
    ∀ (l : List (Nat × String)) (w : String), w ∉ l.map Prod.snd →
      (l.filterMap fun jw => (f jw).map fun v => (jw.2, v)).lookup w =
        none := by
  intro l
  induction l with
  | nil => intro w _; rfl
  | cons kw t ih =>
    intro w hw
    rw [List.map_cons] at hw
    have hrec : w ∉ t.map Prod.snd := fun h2 => hw (List.mem_cons_of_mem _ h2)
    have hne : w ≠ kw.2 := fun he => hw (by rw [he]; exact List.mem_cons_self _ _)
    rw [List.filterMap_cons]
    cases f kw with
    | none => exact ih w hrec
    | some v =>
      have hb : (w == kw.2) = false := beq_eq_false_iff_ne.mpr hne
      simp only [Option.map_some', List.lookup, hb]
      exact ih w hrec

/-- Looking up a column word in the row built by filtering the cells returns
exactly that word's cell, provided the column words are duplicate-free. -/
theorem lookup_filterMap_assoc {γ : Type} (f : Nat × String → Option γ) :
    ∀ l : List (Nat × String), (l.map Prod.snd).Nodup →
      ∀ (i : Nat) (w : String), (i, w) ∈ l →
        (l.filterMap fun jw => (f jw).map fun v => (jw.2, v)).lookup w =
          f (i, w) := by
  intro l
  induction l with
  | nil => intro _ i w h; cases h
  | cons kw t ih =>
    intro hnd i w hm
    rw [List.map_cons, List.nodup_cons] at hnd
    rw [List.filterMap_cons]
    rcases List.mem_cons.mp hm with heq | hm2
    · subst heq
      cases hf : f (i, w) with
      | none => exact lookup_filterMap_none f t w hnd.1
      | some v => simp [List.lookup]
    · have hne : w ≠ kw.2 :=
        fun he => hnd.1 (by rw [← he]; exact List.mem_map.mpr ⟨(i, w), hm2, rfl⟩)
      cases f kw with
      | none => exact ih hnd.2 i w hm2
      | some v =>
        have hb : (w == kw.2) = false := beq_eq_false_iff_ne.mpr hne
        simp only [Option.map_some', List.lookup, hb]
        exact ih hnd.2 i w hm2

/-- In the enumeration of a duplicate-free list, the word determines its
index. -/
theorem enum_snd_inj (ws : List String) (hnd : ws.Nodup) (i j : Nat)
    (w : String) (hi : (i, w) ∈ ws.enum) (hj : (j, w) ∈ ws.enum) : i = j := by
  rw [List.mem_enum_iff_getElem?] at hi hj
  have hlen : i < ws.length := (List.getElem?_eq_some.mp hi).1
  exact List.getElem?_inj hlen hnd (hi.trans hj.symm)

/-- In any enumeration, the index determines the word. -/
theorem enum_fst_inj (ws : List String) (i : Nat) (a b : String)
    (ha : (i, a) ∈ ws.enum) (hb : (i, b) ∈ ws.enum) : a = b := by
  rw [List.mem_enum_iff_getElem?] at ha hb
  have := ha.symm.trans hb
  exact Option.some.inj this

/-- Appending one binding for a different key does not change a lookup. -/
theorem lookup_append_of_ne {β : Type} (l : List (String × β)) (w1 : String)
    (row : β) (a : String) (h : a ≠ w1) :
    (l ++ [(w1, row)]).lookup a = l.lookup a := by
  induction l with
  | nil =>
    have hb : (a == w1) = false := beq_eq_false_iff_ne.mpr h
    simp [List.lookup, hb]
  | cons p t ih =>
    obtain ⟨k1, v1⟩ := p
    by_cases hk : a = k1
    · subst hk
      simp [List.lookup]
    · have hb : (a == k1) = false := beq_eq_false_iff_ne.mpr hk
      simp only [List.cons_append, List.lookup, hb]
      exact ih

/-- The closed-form cell is symmetric in its two (index, word) arguments. -/
theorem entrySpec_symm (sim : Embedding → Embedding → ℚ) (m : WordMap)
    (i j : Nat) (w1 w2 : String) :
    entrySpec sim m i j w1 w2 = entrySpec sim m j i w2 w1 := by
  unfold entrySpec
  by_cases hij : i = j
  · rw [if_pos hij, if_pos hij.symm]
  · have hji : ¬ j = i := fun h => hij h.symm
    rw [if_neg hij, if_neg hji]
    cases h1 : lookupWord m w1 <;> cases h2 : lookupWord m w2
    · rfl
    · rfl
    · rfl
    · dsimp only
      rcases Nat.lt_trichotomy i j with hlt | heq | hgt
      · rw [if_pos hlt, if_neg (Nat.lt_asymm hlt)]
      · exact absurd heq hij
      · rw [if_neg (Nat.lt_asymm hgt), if_pos hgt]

/-- The inner column loop appends exactly the truthy cells in column order;
the lookup through the partially built row never fires because a column word
equal to the row word can only occur on the diagonal (JS object keys are
unique). -/
theorem foldl_rowStep_eq (sim : Embedding → Embedding → ℚ) (m : WordMap)
    (acc : SimMatrix) (i : Nat) (w1 : String) :
    ∀ (cols : List (Nat × String)) (row : SimRow),
      (∀ jw ∈ cols, jw.2 = w1 → i = jw.1) →
      cols.foldl (rowStep sim m acc i w1) row =
        row ++ cols.filterMap fun jw =>
          (cellAcc sim m acc i w1 jw).map fun v => (jw.2, v) := by
  intro cols
  induction cols with
  | nil => intro row _; simp
  | cons jw t ih =>
    intro row hcols
    rw [List.foldl_cons, List.filterMap_cons]
    have hstep : rowStep sim m acc i w1 row jw =
        row ++ ((cellAcc sim m acc i w1 jw).map fun v => (jw.2, v)).toList := by
      unfold rowStep cellAcc
      by_cases hij : i = jw.1
      · rw [if_pos hij, if_pos hij]
        rfl
      · rw [if_neg hij, if_neg hij]
        have hne : jw.2 ≠ w1 :=
          fun he => hij (hcols jw (List.mem_cons_self _ _) he)
        have hml : matLookup (acc ++ [(w1, row)]) jw.2 w1 =
            matLookup acc jw.2 w1 := by
          unfold matLookup
          rw [lookup_append_of_ne acc w1 row jw.2 hne]
        rw [hml]
        cases matLookup acc jw.2 w1 with
        | some v => rfl
        | none =>
          cases lookupWord m w1 <;> cases lookupWord m jw.2 <;> simp
    rw [hstep]
    cases hE : cellAcc sim m acc i w1 jw with
    | some v =>
      simp only [hE, Option.map_some', Option.toList]
      rw [ih _ fun x hx => hcols x (List.mem_cons_of_mem _ hx)]
      simp
    | none =>
      simp only [hE, Option.map_none', Option.toList, List.append_nil]
      exact ih _ fun x hx => hcols x (List.mem_cons_of_mem _ hx)

/-- Evaluated over the finished rows of the words before the current one, the
cell the inner loop produces agrees with the closed-form cell: earlier rows
are copied (and carry the symmetric value), later cells are computed fresh,
and cells with a missing embedding are absent either way. -/
theorem cellAcc_eq_entrySpec (sim : Embedding → Embedding → ℚ) (m : WordMap)
    (hnd : (m.map Prod.fst).Nodup) (pre rest : List (Nat × String)) (i : Nat)
    (w1 : String)
    (hsplit : (m.map Prod.fst).enum = pre ++ (i, w1) :: rest) :
    ∀ jw ∈ (m.map Prod.fst).enum,
      cellAcc sim m (pre.map fun kw => (kw.2, rowFinal sim m kw.1 kw.2)) i w1
        jw = entrySpec sim m i jw.1 w1 jw.2 := by
  intro jw hjw
  have hpair := pairwise_fst_lt_enum (m.map Prod.fst)
  rw [hsplit, List.pairwise_append] at hpair
  obtain ⟨hpre_pw, hmid_pw, hcross⟩ := hpair
  rw [List.pairwise_cons] at hmid_pw
  have hiw : (i, w1) ∈ (m.map Prod.fst).enum := by
    rw [hsplit]
    exact List.mem_append_right _ (List.mem_cons_self _ _)
  by_cases hij : i = jw.1
  · unfold cellAcc entrySpec
    rw [if_pos hij, if_pos hij]
  · have hjw2 : jw ∈ pre ∨ jw ∈ rest := by
      rw [hsplit] at hjw
      rcases List.mem_append.mp hjw with h | h
      · exact Or.inl h
      · rcases List.mem_cons.mp h with heq | h2
        · exact absurd (by rw [heq]) hij
        · exact Or.inr h2
    rcases hjw2 with hjpre | hjrest
    · have hjenum : jw ∈ (m.map Prod.fst).enum := hjw
      have hlk : (pre.map fun kw =>
          (kw.2, rowFinal sim m kw.1 kw.2)).lookup jw.2 =
          some (rowFinal sim m jw.1 jw.2) := by
        apply lookup_eq_of_mem
        · have hkeys : ((pre.map fun kw =>
              (kw.2, rowFinal sim m kw.1 kw.2)).map Prod.fst) =
              pre.map Prod.snd := by
            rw [List.map_map]
            rfl
          rw [hkeys]
          have hsub : (pre.map Prod.snd).Sublist
              ((m.map Prod.fst).enum.map Prod.snd) := by
            rw [hsplit, List.map_append]
            exact (List.sublist_append_left _ _).trans (List.Sublist.refl _)
          refine List.Nodup.sublist hsub ?_
          rw [List.enum_map_snd]
          exact hnd
        · exact List.mem_map.mpr ⟨jw, hjpre, rfl⟩
      have hrow : (rowFinal sim m jw.1 jw.2).lookup w1 =
          entrySpec sim m jw.1 i jw.2 w1 := by
        unfold rowFinal
        exact lookup_filterMap_assoc _ _
          (by rw [List.enum_map_snd]; exact hnd) i w1 hiw
      have hmat : matLookup (pre.map fun kw =>
          (kw.2, rowFinal sim m kw.1 kw.2)) jw.2 w1 =
          entrySpec sim m jw.1 i jw.2 w1 := by
        unfold matLookup
        rw [hlk]
        exact hrow
      unfold cellAcc
      rw [if_neg hij, hmat, entrySpec_symm sim m i jw.1 w1 jw.2]
      cases hE : entrySpec sim m jw.1 i jw.2 w1 with
      | some v => rfl
      | none =>
        have hji : ¬ jw.1 = i := fun h => hij h.symm
        unfold entrySpec at hE
        rw [if_neg hji] at hE
        cases hA : lookupWord m w1 <;> cases hB : lookupWord m jw.2
        · rfl
        · rfl
        · rfl
        · rw [hB, hA] at hE
          simp at hE
    · have hjgt : i < jw.1 := hmid_pw.1 jw hjrest
      have hkeysnone : jw.2 ∉ pre.map Prod.snd := by
        intro hmem
        obtain ⟨kw, hkw, hkweq⟩ := List.mem_map.mp hmem
        have hkwenum : kw ∈ (m.map Prod.fst).enum := by
          rw [hsplit]
          exact List.mem_append_left _ hkw
        have hkw2 : (kw.1, jw.2) ∈ (m.map Prod.fst).enum := by
          rw [← hkweq, Prod.mk.eta] at *
          exact hkwenum
        have hjenum2 : (jw.1, jw.2) ∈ (m.map Prod.fst).enum := by
          rw [Prod.mk.eta]
          exact hjw
        have heqidx : kw.1 = jw.1 :=
          enum_snd_inj (m.map Prod.fst) hnd kw.1 jw.1 jw.2 hkw2 hjenum2
        have hklt : kw.1 < i := hcross kw hkw (i, w1) (List.mem_cons_self _ _)
        omega
      have hmatn : matLookup (pre.map fun kw =>
          (kw.2, rowFinal sim m kw.1 kw.2)) jw.2 w1 = none := by
        unfold matLookup
        have hln : (pre.map fun kw =>
            (kw.2, rowFinal sim m kw.1 kw.2)).lookup jw.2 = none := by
          apply lookup_none_of_not_mem
          have hkeys : ((pre.map fun kw =>
              (kw.2, rowFinal sim m kw.1 kw.2)).map Prod.fst) =
              pre.map Prod.snd := by
            rw [List.map_map]
            rfl
          rw [hkeys]
          exact hkeysnone
        rw [hln]
      unfold cellAcc entrySpec
      rw [if_neg hij, if_neg hij, hmatn]
      cases hA : lookupWord m w1 <;> cases hB : lookupWord m jw.2
      · rfl
      · rfl
      · rfl
      · dsimp only
        rw [if_pos hjgt]

/-- The outer row loop, started after the rows of `pre` are finished, finishes
every remaining row to its closed form. -/
theorem buildMatrix_spec (sim : Embedding → Embedding → ℚ) (m : WordMap)
    (hnd : (m.map Prod.fst).Nodup) :
    ∀ (suffix pre : List (Nat × String)),
      (m.map Prod.fst).enum = pre ++ suffix →
      buildMatrix sim m suffix
          (pre.map fun kw => (kw.2, rowFinal sim m kw.1 kw.2)) =
        (m.map Prod.fst).enum.map fun kw =>
          (kw.2, rowFinal sim m kw.1 kw.2) := by
  intro suffix
  induction suffix with
  | nil =>
    intro pre hsplit
    rw [buildMatrix, hsplit, List.append_nil]
  | cons iw rest ih =>
    intro pre hsplit
    rw [buildMatrix]
    have hsplit2 : (m.map Prod.fst).enum = pre ++ (iw.1, iw.2) :: rest := by
      rw [Prod.mk.eta]
      exact hsplit
    have hrow : buildRow sim m
        (pre.map fun kw => (kw.2, rowFinal sim m kw.1 kw.2)) iw.1 iw.2 =
        rowFinal sim m iw.1 iw.2 := by
      unfold buildRow
      rw [foldl_rowStep_eq]
      · rw [List.nil_append]
        show _ = (m.map Prod.fst).enum.filterMap fun jw =>
          (entrySpec sim m iw.1 jw.1 iw.2 jw.2).map fun v => (jw.2, v)
        apply List.filterMap_congr
        intro jw hjw
        rw [cellAcc_eq_entrySpec sim m hnd pre rest iw.1 iw.2 hsplit2 jw hjw]
      · intro jw hjw heq
        have hjenum : (jw.1, iw.2) ∈ (m.map Prod.fst).enum := by
          rw [← heq, Prod.mk.eta]
          exact hjw
        have hienum : (iw.1, iw.2) ∈ (m.map Prod.fst).enum := by
          rw [hsplit2]
          exact List.mem_append_right _ (List.mem_cons_self _ _)
        exact (enum_snd_inj (m.map Prod.fst) hnd jw.1 iw.1 iw.2 hjenum
          hienum).symm
    rw [hrow]
    have hmap : (pre.map fun kw => (kw.2, rowFinal sim m kw.1 kw.2)) ++
        [(iw.2, rowFinal sim m iw.1 iw.2)] =
        (pre ++ [iw]).map fun kw => (kw.2, rowFinal sim m kw.1 kw.2) := by
      rw [List.map_append]
      rfl
    rw [hmap]
    exact ih (pre ++ [iw]) (by rw [hsplit, List.append_assoc]; rfl)

/-- C3: the similarity matrix is symmetric as a partial map (equal entries,
including both being absent), every diagonal entry of an input word is exactly
1 regardless of its embedding, and an off-diagonal entry is absent whenever
either embedding is null/absent. -/
theorem createSimilarityMatrix_props (sim : Embedding → Embedding → ℚ)
    (m : WordMap) (hnd : (m.map Prod.fst).Nodup) :
    (∀ a b, matLookup (createSimilarityMatrix sim m) a b =
      matLookup (createSimilarityMatrix sim m) b a) ∧
    (∀ a ∈ m.map Prod.fst,
      matLookup (createSimilarityMatrix sim m) a a = some 1) ∧
    (∀ a b, a ≠ b → (lookupWord m a = none ∨ lookupWord m b = none) →
      matLookup (createSimilarityMatrix sim m) a b = none) := by
  have hmat : createSimilarityMatrix sim m =
      (m.map Prod.fst).enum.map fun kw => (kw.2, rowFinal sim m kw.1 kw.2) := by
    unfold createSimilarityMatrix
    exact buildMatrix_spec sim m hnd (m.map Prod.fst).enum [] rfl
  have hkeys : (((m.map Prod.fst).enum.map fun kw =>
      (kw.2, rowFinal sim m kw.1 kw.2)).map Prod.fst) = m.map Prod.fst := by
    rw [List.map_map]
    have : ((m.map Prod.fst).enum.map fun kw => kw.2) =
        (m.map Prod.fst).enum.map Prod.snd := rfl
    rw [show (Prod.fst ∘ fun kw : Nat × String =>
      ((kw.2 : String), rowFinal sim m kw.1 kw.2)) = Prod.snd from rfl]
    exact List.enum_map_snd _
  have hentry : ∀ (ia : Nat) (a : String), (ia, a) ∈ (m.map Prod.fst).enum →
      ∀ (jb : Nat) (b : String), (jb, b) ∈ (m.map Prod.fst).enum →
      matLookup (createSimilarityMatrix sim m) a b =
        entrySpec sim m ia jb a b := by
    intro ia a ha jb b hb
    rw [hmat]
    have hla : ((m.map Prod.fst).enum.map fun kw =>
        (kw.2, rowFinal sim m kw.1 kw.2)).lookup a =
        some (rowFinal sim m ia a) := by
      apply lookup_eq_of_mem
      · rw [hkeys]
        exact hnd
      · exact List.mem_map.mpr ⟨(ia, a), ha, rfl⟩
    unfold matLookup
    rw [hla]
    unfold rowFinal
    exact lookup_filterMap_assoc _ _
      (by rw [List.enum_map_snd]; exact hnd) jb b hb
  have hout : ∀ a, a ∉ m.map Prod.fst →
      ∀ b, matLookup (createSimilarityMatrix sim m) a b = none := by
    intro a ha b
    rw [hmat]
    unfold matLookup
    have hln : ((m.map Prod.fst).enum.map fun kw =>
        (kw.2, rowFinal sim m kw.1 kw.2)).lookup a = none :=
      lookup_none_of_not_mem _ _ (by rw [hkeys]; exact ha)
    rw [hln]
  have hcol : ∀ (ia : Nat) (a : String), (ia, a) ∈ (m.map Prod.fst).enum →
      ∀ b, b ∉ m.map Prod.fst →
      matLookup (createSimilarityMatrix sim m) a b = none := by
    intro ia a ha b hb
    rw [hmat]
    have hla : ((m.map Prod.fst).enum.map fun kw =>
        (kw.2, rowFinal sim m kw.1 kw.2)).lookup a =
        some (rowFinal sim m ia a) := by
      apply lookup_eq_of_mem
      · rw [hkeys]
        exact hnd
      · exact List.mem_map.mpr ⟨(ia, a), ha, rfl⟩
    unfold matLookup
    rw [hla]
    unfold rowFinal
    exact lookup_filterMap_none _ _ _
      (by rw [List.enum_map_snd]; exact hb)
  have hidx : ∀ a ∈ m.map Prod.fst, ∃ ia,
      (ia, a) ∈ (m.map Prod.fst).enum := by
    intro a ha
    obtain ⟨n, hn⟩ := List.mem_iff_get?.mp ha
    refine ⟨n, List.mem_enum_iff_getElem?.mpr ?_⟩
    rw [← List.get?_eq_getElem?]
    exact hn
  refine ⟨?_, ?_, ?_⟩
  · intro a b
    by_cases ha : a ∈ m.map Prod.fst
    · obtain ⟨ia, hia⟩ := hidx a ha
      by_cases hb : b ∈ m.map Prod.fst
      · obtain ⟨jb, hjb⟩ := hidx b hb
        rw [hentry ia a hia jb b hjb, hentry jb b hjb ia a hia,
          entrySpec_symm]
      · rw [hcol ia a hia b hb, hout b hb a]
    · rw [hout a ha b]
      by_cases hb : b ∈ m.map Prod.fst
      · obtain ⟨jb, hjb⟩ := hidx b hb
        rw [hcol jb b hjb a ha]
      · rw [hout b hb a]
  · intro a ha
    obtain ⟨ia, hia⟩ := hidx a ha
    rw [hentry ia a hia ia a hia]
    unfold entrySpec
    rw [if_pos rfl]
  · intro a b hne hmiss
    by_cases ha : a ∈ m.map Prod.fst
    · by_cases hb : b ∈ m.map Prod.fst
      · obtain ⟨ia, hia⟩ := hidx a ha
        obtain ⟨jb, hjb⟩ := hidx b hb
        rw [hentry ia a hia jb b hjb]
        have hij : ¬ ia = jb := by
          intro he
          subst he
          exact hne (enum_fst_inj (m.map Prod.fst) ia a b hia hjb)
        unfold entrySpec
        rw [if_neg hij]
        rcases hmiss with hm1 | hm2
        · rw [hm1]
        · rw [hm2]
          cases lookupWord m a <;> rfl
      · obtain ⟨ia, hia⟩ := hidx a ha
        exact hcol ia a hia b hb
    · exact hout a ha b

/-- Witness for C3 on a three-word map with one null embedding. -/
theorem createSimilarityMatrix_props_witness :
    ((([("a", some [1]), ("b", none), ("c", some [2])] : WordMap).map
        Prod.fst).Nodup) ∧
    ((∀ a b, matLookup (createSimilarityMatrix oneSim
        [("a", some [1]), ("b", none), ("c", some [2])]) a b =
      matLookup (createSimilarityMatrix oneSim
        [("a", some [1]), ("b", none), ("c", some [2])]) b a) ∧
    (∀ a ∈ ([("a", some [1]), ("b", none), ("c", some [2])] : WordMap).map
        Prod.fst,
      matLookup (createSimilarityMatrix oneSim
        [("a", some [1]), ("b", none), ("c", some [2])]) a a = some 1) ∧
    (∀ a b, a ≠ b →
      (lookupWord [("a", some [1]), ("b", none), ("c", some [2])] a = none ∨
        lookupWord [("a", some [1]), ("b", none), ("c", some [2])] b = none) →
      matLookup (createSimilarityMatrix oneSim
        [("a", some [1]), ("b", none), ("c", some [2])]) a b = none)) :=
  ⟨by decide, createSimilarityMatrix_props oneSim
    [("a", some [1]), ("b", none), ("c", some [2])] (by decide)⟩
